import Mathlib

/-!
Verification of the Panair input/output file-handling module
(`panairwrapper/filehandling.py`): the fixed-width numeric encoder, the
input-deck assembler, the geometry-block emitters, and the output parsers.
Numbers handled by the Python code are embedded as exact rationals (`ℚ`)
and, where the decimal string representation itself matters, as exact
decimal values (`DecNum`, an integer mantissa with a power-of-ten shift).
-/

namespace Panair

/-! ### Decimal string utilities -/

/-- The character for a single decimal digit. -/
def natDigitChar (d : Nat) : Char := Char.ofNat (48 + d)

/-- Big-endian decimal digits of `n`, with an explicit fuel argument
bounding the number of division steps. -/
def natDigitsAux : Nat → Nat → List Char
  | 0, _ => []
  | fuel + 1, n =>
    if n = 0 then [] else natDigitsAux fuel (n / 10) ++ [natDigitChar (n % 10)]

/-- Big-endian decimal digits of `n` (`"0"` for zero). -/
def natDigits (n : Nat) : List Char := if n = 0 then ['0'] else natDigitsAux n n

/-- Decimal string of a natural number. -/
def natToDec (n : Nat) : String := ⟨natDigits n⟩

/-- Decimal string of an integer. -/
def intToDec (i : Int) : String := (if i < 0 then "-" else "") ++ natToDec i.natAbs

/-- Models Python `str.ljust` / the `'{0:<w}'` format: pad on the right
with spaces up to width `w`. -/
def ljust (w : Nat) (s : String) : String := s ++ ⟨List.replicate (w - s.length) ' '⟩

/-- Exactly `P` decimal digits of `m < 10 ^ P`, left-padded with zeros. -/
def fracPad (P m : Nat) : String := ⟨List.replicate (P - (natDigits m).length) '0'⟩ ++ natToDec m

/-! ### Exact decimal numbers

`DecNum m e` stands for the value `m / 10 ^ e`.  This is the exact-value
embedding of the floating-point inputs the Python encoder receives: every
float literal a Panair user writes is such a value. -/

structure DecNum where
  m : Int
  e : Nat
deriving DecidableEq

namespace DecNum

/-- The rational value of a decimal number. -/
def val (d : DecNum) : ℚ := (d.m : ℚ) / 10 ^ d.e

end DecNum

/-- Strip trailing zero decimals: the canonical (shortest) mantissa/shift
pair for the same value. -/
def normDec : Int → Nat → Int × Nat
  | m, 0 => (m, 0)
  | m, e + 1 => if m % 10 = 0 then normDec (m / 10) e else (m, e + 1)

/-- Models Python `str(float(x))` on exact decimal values, in the regime
where CPython renders floats in positional notation (integral values and
magnitudes in `[1e-4, 1e16)`); there `repr` of a float is its shortest
decimal form, i.e. the normalized mantissa/shift rendering below. -/
def pyFloatStr (d : DecNum) : String :=
  if (normDec d.m d.e).2 = 0 then intToDec (normDec d.m d.e).1 ++ ".0"
  else
    (if (normDec d.m d.e).1 < 0 then "-" else "") ++
      natToDec ((normDec d.m d.e).1.natAbs / 10 ^ (normDec d.m d.e).2) ++ "." ++
      fracPad (normDec d.m d.e).2 ((normDec d.m d.e).1.natAbs % 10 ^ (normDec d.m d.e).2)

/-! ### The fixed-width encoder (`InputFile._format_opt`,
`InputFile._format_str_opt`, `InputFile._fixed_width_precision`,
`InputFile._format_coord`) -/

/-- `InputFile._format_opt`: `'{0:<10}'.format(float(number))`. -/
def format_opt (number : DecNum) : String := ljust 10 (pyFloatStr number)

/-- `InputFile._format_str_opt`: `'{0:<10}'.format(string)`. -/
def format_str_opt (s : String) : String := ljust 10 s

/-- `InputFile._fixed_width_precision`.  `copysign(1, x) < 0` is `x < 0`
on exact (zero-sign-free) values; `raise RuntimeError` is the `error`
branch. -/
def fixed_width_precision (number : ℚ) : Except String ℤ :=
  let p0 : ℤ := 8
  let p1 := if number < 0 then p0 - 1 else p0
  let p2 := if 10 ≤ |number| then p1 - 1 else p1
  let p3 := if 100 ≤ |number| then p2 - 1 else p2
  let p4 := if 1000 ≤ |number| then p3 - 1 else p3
  let p5 := if 10000 ≤ |number| then p4 - 1 else p4
  if 100000 ≤ |number| then Except.error "formatting not implemented"
  else Except.ok p5

/-- Models the Python fixed-point conversion `'%.Pf' % x`: the magnitude
is scaled by `10 ^ P`, rounded to the nearest integer, and printed with
exactly `P` decimals (none, and no point, when `P = 0`), with a leading
minus sign for negative inputs. -/
def formatFixed (P : Nat) (q : ℚ) : String :=
  if P = 0 then
    (if q < 0 then "-" else "") ++ natToDec (round (|q| * 10 ^ P)).toNat
  else
    (if q < 0 then "-" else "") ++ natToDec ((round (|q| * 10 ^ P)).toNat / 10 ^ P) ++
      "." ++ fracPad P ((round (|q| * 10 ^ P)).toNat % 10 ^ P)

/-- A 3D point, as handed to `_format_coord`. -/
abbrev Coord := ℚ × ℚ × ℚ

/-- One 10-column coordinate field: the adaptive precision followed by the
left-justified fixed-point rendering. -/
def coordField (P : ℤ) (q : ℚ) : String := ljust 10 (formatFixed P.toNat q)

/-- `InputFile._format_coord`: three adaptive-precision fields, precision
computed (and any error raised) for all coordinates before formatting. -/
def format_coord (c : Coord) : Except String String :=
  match fixed_width_precision c.1, fixed_width_precision c.2.1,
      fixed_width_precision c.2.2 with
  | .ok p0, .ok p1, .ok p2 =>
      .ok (coordField p0 c.1 ++ coordField p1 c.2.1 ++ coordField p2 c.2.2)
  | .error e, _, _ => .error e
  | .ok _, .error e, _ => .error e
  | .ok _, .ok _, .error e => .error e

/-! ### The input deck (`InputFile.__init__`, `write_inputfile`, builders)

`self._input_dict` is an `OrderedDict`; it is embedded as an
insertion-ordered association list. -/

abbrev Deck := List (String × String)

/-- One dictionary assignment `self._input_dict[name] = text`: overwrite in
place when the key is present, append otherwise. -/
def odInsert (d : Deck) (k v : String) : Deck :=
  if d.any (fun p => decide (p.1 = k)) then
    d.map (fun p => if p.1 = k then (k, v) else p)
  else d ++ [(k, v)]

/-- Replay a sequence of builder invocations, each of which stores one
rendered block under its block name. -/
def buildDeck (ops : List (String × String)) : Deck :=
  ops.foldl (fun d p => odInsert d p.1 p.2) []

/-- `InputFile.write_inputfile`: the sequence of `f.write` calls, modelled
as accumulation into the written string. -/
def write_inputfile (d : Deck) : String :=
  (d.foldl (fun acc p => acc ++ ("$" ++ p.1 ++ "\n" ++ p.2)) "") ++ "$end"

/-- Rendering shape stated by the spec: per stored block, a line made of
the delimiter immediately followed by the name, then the block text; the
literal end marker after the last block. -/
def specDeckRender : Deck → String
  | [] => "$end"
  | p :: rest => "$" ++ p.1 ++ "\n" ++ p.2 ++ specDeckRender rest

/-- The order of first insertions of a name sequence. -/
def firstInsertionOrder (names : List String) : List String :=
  names.foldl (fun acc n => if n ∈ acc then acc else acc ++ [n]) []

/-- Dictionary lookup `self._input_dict[name]`. -/
def odLookup (d : Deck) (k : String) : Option String :=
  (d.find? (fun p => decide (p.1 = k))).map Prod.snd

/-- Concatenation of a list of strings (string accumulation in a loop). -/
def concatAll : List String → String
  | [] => ""
  | s :: rest => s ++ concatAll rest

/-- `InputFile._format_header`: first label gets the `=` marker, every
field fixed width, newline-terminated. -/
def format_header (labels : List String) : String :=
  (match labels with
   | [] => ""
   | l :: rest => format_str_opt ("=" ++ l) ++ concatAll (rest.map format_str_opt)) ++ "\n"

/-- `InputFile._format_inputline`: concatenated fixed-width value fields,
newline-terminated. -/
def format_inputline (values : List DecNum) : String :=
  concatAll (values.map format_opt) ++ "\n"

/-! ### Geometry emission (`InputFile._gen_network_inp`,
`InputFile.xyzcoordinatesofoffbodypoints`) -/

/-- Number of newline characters in a string. -/
def countNL (s : String) : Nat := s.data.count '\n'

/-- The string contains no newline. -/
abbrev noNL (s : String) : Prop := '\n' ∉ s.data

/-- Error-propagating map over a list (the accumulation loop of the Python
code: the first raised error aborts the whole construction). -/
def mapExcept {α β : Type _} (f : α → Except String β) : List α → Except String (List β)
  | [] => .ok []
  | a :: l =>
    match f a, mapExcept f l with
    | .ok b, .ok bs => .ok (b :: bs)
    | .error e, _ => .error e
    | .ok _, .error e => .error e

/-- The coordinate-emission loop shared by `_gen_network_inp` (inner `j`
loop, `if (j+1) % 2 is 0: += "\n"`) and the off-body block: emit each
point's fields, appending a newline after every point whose 0-based index
`j` satisfies `(j+1) % 2 == 0`. -/
def emitPoints : Nat → List Coord → Except String String
  | _, [] => .ok ""
  | j, p :: rest =>
    match format_coord p, emitPoints (j + 1) rest with
    | .ok s, .ok t => .ok (s ++ (if (j + 1) % 2 = 0 then "\n" else "") ++ t)
    | .error e, _ => .error e
    | .ok _, .error e => .error e

/-- One record row of points followed by the odd-count closing blank line
(`if nm % 2 is not 0: += "\n"`). -/
def emitRow (row : List Coord) : Except String String :=
  match emitPoints 0 row with
  | .ok body => .ok (body ++ (if ¬ row.length % 2 = 0 then "\n" else ""))
  | .error e => .error e

/-- `InputFile._gen_network_inp` for a network array of shape
`(nn, nm, 3)`: sub-header naming the dimensions, the `[nm, nn]` value
line, then the row-by-row coordinate emission. -/
def gen_network_inp (netname : String) (nn nm : Nat) (points : Nat → Nat → Coord) :
    Except String String :=
  match mapExcept (fun i => emitRow ((List.range nm).map (points i))) (List.range nn) with
  | .ok rows =>
    .ok (("=nm       nn                                             " ++ "    " ++
        netname ++ "\n") ++
      format_inputline [⟨nm, 0⟩, ⟨nn, 0⟩] ++ concatAll rows)
  | .error e => .error e

/-- `InputFile.xyzcoordinatesofoffbodypoints`: the rendered block text
(headers, the `isk1` value line, then the point list packed two per
line with the odd-count closing blank line). -/
def xyz_offbody (isk1 : Nat) (points : Nat → Coord) : Except String String :=
  match emitRow ((List.range isk1).map points) with
  | .ok body =>
    .ok (format_header ["isk1"] ++ format_inputline [⟨isk1, 0⟩] ++
      format_header ["xof", "yof", "zof", "xof", "yof", "zof"] ++ body)
  | .error e => .error e

/-- The spec's two-per-line packing of rendered point fields: each
completed pair of points on one line, a lone trailing point followed by
the extra closing newline. -/
def pairsRender : List String → String
  | [] => ""
  | [a] => a ++ "\n"
  | a :: b :: rest => a ++ b ++ "\n" ++ pairsRender rest

/-- Pair packing without the closing blank line: what the bare emission
loop produces before the odd-count check. -/
def emitPairs : List String → String
  | [] => ""
  | [a] => a
  | a :: b :: rest => a ++ b ++ "\n" ++ emitPairs rest

/-! ### Output parsing (`OutputFiles`) -/

/-- Python's substring test `sub in s`. -/
def strIn (sub s : String) : Bool := s.data.tails.any (fun t => sub.data.isPrefixOf t)

/-- `OutputFiles._get_block`: scan for the first line containing the begin
flag; from that same line scan for the first containing the end flag;
return the slice `lines[front:back]` strictly between them.  A missing
marker makes the scan run past the end (`none`, the fatal case). -/
def get_block (lines : List String) (block_name : String) : Option (List String) :=
  match lines.findIdx? (fun l => strIn ("0*b*" ++ block_name) l) with
  | none => none
  | some b =>
    match (lines.drop b).findIdx? (fun l => strIn ("0*e*" ++ block_name) l) with
    | none => none
    | some o => some ((lines.drop (b + 1)).take (b + o - (b + 1)))

/-! ### The sample-file parser (`OutputFiles.parse_agps`) -/

/-- Models an anchored `re.match` prefix test (`re.match('n[0-9]*', line)`
succeeds exactly when the line starts with `n`, since `[0-9]*` may be
empty; `'\*eof'` and `' irow'` are literal prefixes). -/
def strStarts (pre s : String) : Bool := pre.data.isPrefixOf s.data

/-- Python `str.isspace` characters relevant to `split()`/`int()`. -/
def isSpace (c : Char) : Bool := c == ' ' || c == '\t' || c == '\n' || c == '\r'

/-- `line.split()`: maximal runs of non-whitespace characters. -/
def splitWsAux : List Char → List Char → List String
  | [], cur => if cur.isEmpty then [] else [String.mk cur.reverse]
  | c :: rest, cur =>
    if isSpace c then
      (if cur.isEmpty then [] else [String.mk cur.reverse]) ++ splitWsAux rest []
    else splitWsAux rest (c :: cur)

def splitWs (s : String) : List String := splitWsAux s.data []

def digitVal (c : Char) : Option Nat :=
  if '0' ≤ c ∧ c ≤ '9' then some (c.toNat - 48) else none

def parseNatAux : Nat → List Char → Option Nat
  | acc, [] => some acc
  | acc, c :: rest =>
    match digitVal c with
    | some d => parseNatAux (acc * 10 + d) rest
    | none => none

/-- An unsigned decimal numeral (at least one digit). -/
def parseNatL (l : List Char) : Option Nat := if l.isEmpty then none else parseNatAux 0 l

/-- Strip leading and trailing whitespace (Python `int`/`float` accept
surrounding whitespace, e.g. a trailing newline from `readlines`). -/
def stripWs (l : List Char) : List Char :=
  ((l.dropWhile isSpace).reverse.dropWhile isSpace).reverse

/-- The sign-and-digits part of `int(string)`. -/
def parseIntCore : List Char → Option Int
  | [] => none
  | c :: rest =>
    if c = '-' then (parseNatL rest).map (fun n => -(n : Int))
    else if c = '+' then (parseNatL rest).map (fun n => (n : Int))
    else (parseNatL (c :: rest)).map (fun n => (n : Int))

/-- Models Python `int(string)` on decimal numerals. -/
def parseIntL (l : List Char) : Option Int := parseIntCore (stripWs l)

/-- The magnitude part of a decimal float literal: `digits[.digits]`,
`digits.`, or `.digits`. -/
def parseDecMag (l : List Char) : Option ℚ :=
  match l.dropWhile (fun c => ¬ c = '.') with
  | [] => (parseNatL l).map (fun n => (n : ℚ))
  | _ :: fp =>
    if (l.takeWhile (fun c => ¬ c = '.')).isEmpty ∧ fp.isEmpty then none
    else
      match (if (l.takeWhile (fun c => ¬ c = '.')).isEmpty then some 0
          else parseNatL (l.takeWhile (fun c => ¬ c = '.'))),
          (if fp.isEmpty then some 0 else parseNatL fp) with
      | some i, some f => some ((i : ℚ) + (f : ℚ) / 10 ^ fp.length)
      | _, _ => none

/-- The sign-and-magnitude part of `float(string)`. -/
def parseFloatCore : List Char → Option ℚ
  | [] => none
  | c :: rest =>
    if c = '-' then (parseDecMag rest).map (fun q => -q)
    else if c = '+' then parseDecMag rest
    else parseDecMag (c :: rest)

/-- Models Python `float(string)` on plain (non-exponent) decimal
literals, the format appearing in the agps sample rows. -/
def parseFloatL (l : List Char) : Option ℚ := parseFloatCore (stripWs l)

/-- Python `line.split('c')`: split at every occurrence of the character. -/
def splitOnChar (ch : Char) : List Char → List (List Char)
  | [] => [[]]
  | c :: rest =>
    if c = ch then [] :: splitOnChar ch rest
    else
      match splitOnChar ch rest with
      | [] => [[c]]
      | h :: t => (c :: h) :: t

/-- Option-valued map over a list, failing if any element fails. -/
def mapOpt {α β : Type _} (f : α → Option β) : List α → Option (List β)
  | [] => some []
  | a :: l =>
    match f a, mapOpt f l with
    | some b, some bs => some (b :: bs)
    | _, _ => none

/-- One iteration of the `parse_agps` line loop.  State: current network
id `n`, current column id `c`, accumulated samples.  A sample is the list
`[n, c, r, x, y, z, Cp]` the Python code appends. -/
def agps_step (st : Int × Int × List (List ℚ)) (line : String) :
    Except String (Int × Int × List (List ℚ)) :=
  if strStarts "n" line then
    match splitOnChar 'c' line.data with
    | [network, column] =>
      match parseIntL (network.drop 1), parseIntL column with
      | some ni, some ci => .ok (ni, ci, st.2.2)
      | _, _ => .error "ValueError"
    | _ => .error "ValueError"
  else if strStarts "*eof" line then .ok st
  else if strStarts " irow" line then .ok st
  else
    match splitWs line with
    | [] => .error "IndexError"
    | tok :: rest =>
      match parseIntL tok.data, mapOpt (fun t => parseFloatL t.data) rest with
      | some r, some vals =>
        .ok (st.1, st.2.1, st.2.2 ++ [[(st.1 : ℚ), (st.2.1 : ℚ), (r : ℚ)] ++ vals])
      | _, _ => .error "ValueError"

/-- The `for line in lines[6:]` loop body iterated over a line list. -/
def agps_loop : (Int × Int × List (List ℚ)) → List String →
    Except String (Int × Int × List (List ℚ))
  | st, [] => .ok st
  | st, line :: rest =>
    match agps_step st line with
    | .ok st2 => agps_loop st2 rest
    | .error e => .error e

/-- `OutputFiles.parse_agps`: initial state `n = 0, c = 0`, loop over
`lines[6:]`, return the accumulated sample list. -/
def parse_agps (lines : List String) : Except String (List (List ℚ)) :=
  match agps_loop (0, 0, []) (lines.drop 6) with
  | .ok st => .ok st.2.2
  | .error e => .error e

/-- A line the loop treats as a data row that parses successfully. -/
def isDataRow (line : String) : Bool :=
  (!strStarts "n" line) && (!strStarts "*eof" line) && (!strStarts " irow" line) &&
  (match splitWs line with
   | [] => false
   | tok :: rest =>
     (parseIntL tok.data).isSome && (mapOpt (fun t => parseFloatL t.data) rest).isSome)

/-! ### Grid reconstruction (`OutputFiles.generate_vtk`) -/

/-- Python `int()` truncation of an exact rational (truncation toward
zero; the ids fed to it here are nonnegative whole numbers). -/
def pyInt (q : ℚ) : Int := q.num / (q.den : Int)

/-- Python `max` over a nonempty numeric list. -/
def maxList (l : List ℚ) : ℚ := l.foldl max (l.headD 0)

/-- `n_rows = int(max(points_array[:,2]))` for one network's samples. -/
def reconRows (pts : List (List ℚ)) : Nat :=
  (pyInt (maxList (pts.map (fun p => p.getD 2 0)))).toNat

/-- `n_columns = int(max(points_array[:,1]))`. -/
def reconCols (pts : List (List ℚ)) : Nat :=
  (pyInt (maxList (pts.map (fun p => p.getD 1 0)))).toNat

/-- One scatter write `X[i, j] = v` on a nested-list array. -/
def setCell (m : List (List ℚ)) (i j : Nat) (v : ℚ) : List (List ℚ) :=
  m.set i ((m.getD i []).set j v)

/-- The `X` scatter loop of `generate_vtk`: a zero array of the computed
extent, each sample's `x` written into cell `(row-1, column-1)`. -/
def reconX (pts : List (List ℚ)) : List (List ℚ) :=
  pts.foldl
    (fun X p => setCell X (pyInt (p.getD 2 0 - 1)).toNat
      (pyInt (p.getD 1 0 - 1)).toNat (p.getD 3 0))
    (List.replicate (reconRows pts) (List.replicate (reconCols pts) 0))

/-- Dense 2D shape of a nested-list array. -/
def GridShape (N M : Nat) (X : List (List ℚ)) : Prop :=
  X.length = N ∧ ∀ row ∈ X, row.length = M

/-- The sample set the shared (network, row, column) addressing scheme
associates with an `N`-row × `M`-column network `nid` (as written by
`_gen_network_inp`): one sample per grid cell, row ids `1..N`, column ids
`1..M`, in the `[n, c, r, values...]` layout of `parse_agps`. -/
def networkSamples (nid : Int) (N M : Nat) (xyz : Nat → Nat → List ℚ) :
    List (List ℚ) :=
  ((List.range N).map (fun (i : Nat) => (List.range M).map (fun (j : Nat) =>
    [(nid : ℚ), ((j : ℚ) + 1), ((i : ℚ) + 1)] ++ xyz i j))).flatten

/-- Case analysis on lists two elements at a time. -/
def listPairInduction {α : Type _} (motive : List α → Prop) (h0 : motive [])
    (h1 : ∀ a, motive [a]) (h2 : ∀ a b l, motive l → motive (a :: b :: l)) :
    ∀ l, motive l
  | [] => h0
  | [a] => h1 a
  | a :: b :: l => h2 a b l (listPairInduction motive h0 h1 h2 l)

/-- The text stored by the `mach` builder. -/
def machText (amach : DecNum) : String :=
  format_header ["amach"] ++ format_inputline [amach]

/-- `InputFile.mach`: `self._input_dict["MACH NUMBER"] = header+value`. -/
def mach (d : Deck) (amach : DecNum) : Deck :=
  odInsert d "MACH NUMBER" (machText amach)

/-! ### Basic length lemmas -/

theorem length_mk (l : List Char) : (String.mk l).length = l.length := rfl

theorem data_append (s t : String) : (s ++ t).data = s.data ++ t.data := rfl

theorem length_append (s t : String) : (s ++ t).length = s.length + t.length := by
  show (s ++ t).data.length = s.data.length + t.data.length
  rw [data_append, List.length_append]

theorem ljust_length (w : Nat) (s : String) : (ljust w s).length = max w s.length := by
  show (s ++ String.mk (List.replicate (w - s.length) ' ')).length = _
  rw [length_append]
  show s.length + (List.replicate (w - s.length) ' ').length = _
  rw [List.length_replicate]
  omega

/-- The fuel version agrees with `Nat.digits` once the fuel covers `n`. -/
theorem natDigitsAux_eq (fuel n : Nat) (h : n ≤ fuel) :
    natDigitsAux fuel n = ((Nat.digits 10 n).map natDigitChar).reverse := by
  induction fuel generalizing n with
  | zero =>
    interval_cases n
    simp [natDigitsAux]
  | succ fuel ih =>
    by_cases hn : n = 0
    · simp [natDigitsAux, hn]
    · rw [natDigitsAux, if_neg hn, ih _ (by omega),
        Nat.digits_def' (b := 10) (by norm_num) (Nat.pos_of_ne_zero hn)]
      simp

theorem natDigits_eq (n : Nat) (hn : n ≠ 0) :
    natDigits n = ((Nat.digits 10 n).map natDigitChar).reverse := by
  rw [natDigits, if_neg hn, natDigitsAux_eq n n le_rfl]

theorem natDigits_length_le (n k : Nat) (hk : 1 ≤ k) (h : n < 10 ^ k) :
    (natDigits n).length ≤ k := by
  by_cases hn : n = 0
  · simp [natDigits, hn]; omega
  · rw [natDigits_eq n hn]
    simp only [List.length_reverse, List.length_map]
    rw [Nat.digits_len 10 n (by norm_num) hn]
    have := Nat.log_lt_of_lt_pow hn h
    omega

theorem natToDec_length_le (n k : Nat) (hk : 1 ≤ k) (h : n < 10 ^ k) :
    (natToDec n).length ≤ k := by
  rw [natToDec, length_mk]
  exact natDigits_length_le n k hk h

theorem fracPad_length (P m : Nat) (hm : (natDigits m).length ≤ P) :
    (fracPad P m).length = P := by
  simp [fracPad, length_append, length_mk, natToDec]
  omega

/-- Bounds on the precision returned by `_fixed_width_precision`: it is at
least 3, and together with the sign column costs at most 8. -/
theorem fixed_width_precision_bounds (q : ℚ) (P : ℤ)
    (h : fixed_width_precision q = .ok P) :
    3 ≤ P ∧ P + (if q < 0 then 1 else 0) ≤ 8 := by
  unfold fixed_width_precision at h
  split_ifs at h ⊢ <;> simp_all <;> omega

/-- Evaluating `_fixed_width_precision` on a nonnegative value below 10. -/
theorem fwp_small (q : ℚ) (h0 : 0 ≤ q) (h10 : q < 10) :
    fixed_width_precision q = .ok 8 := by
  have habs : |q| = q := abs_of_nonneg h0
  have h1 : ¬ (q < 0) := not_lt.mpr h0
  have h2 : ¬ ((10 : ℚ) ≤ q) := not_le.mpr h10
  have h3 : ¬ ((100 : ℚ) ≤ q) := not_le.mpr (by linarith)
  have h4 : ¬ ((1000 : ℚ) ≤ q) := not_le.mpr (by linarith)
  have h5 : ¬ ((10000 : ℚ) ≤ q) := not_le.mpr (by linarith)
  have h6 : ¬ ((100000 : ℚ) ≤ q) := not_le.mpr (by linarith)
  unfold fixed_width_precision
  rw [habs]
  simp [h1, h2, h3, h4, h5, h6]

/-! ### Claims C1, C2, C3 -/

/-- C2 (confirmed): for every number of magnitude below 100 000, the chosen
precision is 8, minus 1 if the number is negative, minus 1 for each of the
thresholds 10, 100, 1 000 and 10 000 that its absolute value reaches. -/
theorem precision_budget_rule (q : ℚ) (h : |q| < 100000) :
    fixed_width_precision q =
      .ok (8 - (if q < 0 then 1 else 0) -
        ((if 10 ≤ |q| then 1 else 0) + (if 100 ≤ |q| then 1 else 0) +
          (if 1000 ≤ |q| then 1 else 0) + (if 10000 ≤ |q| then 1 else 0))) := by
  unfold fixed_width_precision
  rw [if_neg (not_le.mpr h)]
  split_ifs <;> norm_num

/-- Witness for C2: at `-123.5` the rule yields precision `8 - 1 - 2 = 5`. -/
theorem precision_budget_rule_witness : fixed_width_precision (-123.5) = .ok 5 := by
  have habs : |(-123.5 : ℚ)| = 123.5 := by
    rw [abs_of_nonpos (by norm_num)]
    norm_num
  have h := precision_budget_rule (-123.5) (by rw [habs]; norm_num)
  rw [habs] at h
  rw [h]
  norm_num

/-- C3 counterexample: `_format_opt` does NOT raise on magnitude ≥ 100 000 —
it silently renders a well-formed 10-character field for 1 000 000. -/
theorem overflow_format_opt_counterexample :
    format_opt ⟨1000000, 0⟩ = "1000000.0 " ∧ (format_opt ⟨1000000, 0⟩).length = 10 := by
  exact ⟨by decide, by decide⟩

/-- C3 (amended): for magnitude at least 100 000, `_fixed_width_precision` —
and therefore the coordinate encoder `_format_coord` — raises the fatal
error, but the plain value-field encoder `_format_opt` does not go through
the precision check and silently produces a field. -/
theorem overflow_raises_in_precision (q b c : ℚ) (h : 100000 ≤ |q|) :
    fixed_width_precision q = .error "formatting not implemented" ∧
    format_coord (q, b, c) = .error "formatting not implemented" := by
  have h1 : fixed_width_precision q = .error "formatting not implemented" := by
    unfold fixed_width_precision
    rw [if_pos h]
  refine ⟨h1, ?_⟩
  unfold format_coord
  rw [h1]

/-- Witness for C3's amended claim at the value 100 000 itself. -/
theorem overflow_raises_in_precision_witness :
    fixed_width_precision 100000 = .error "formatting not implemented" ∧
    format_coord (100000, 0, 0) = .error "formatting not implemented" :=
  overflow_raises_in_precision 100000 0 0 (by norm_num)

/-- C1 counterexample: `0.123456789` is accepted (magnitude < 100 000) yet
`_format_opt` renders it as an 11-character field, not 10. -/
theorem ten_wide_counterexample :
    |DecNum.val ⟨123456789, 9⟩| < 100000 ∧ (format_opt ⟨123456789, 9⟩).length = 11 := by
  refine ⟨?_, by decide⟩
  simp only [DecNum.val]
  rw [abs_lt]
  constructor <;> norm_num

/-- C1 (amended): a `_format_opt` field is `max 10 ℓ` characters long, where
`ℓ` is the length of the value's decimal string — exactly 10 only when the
decimal string fits; a `_format_coord` field is exactly 10 characters
provided the value rounded at the chosen precision stays below the next
power-of-ten decade (`round(|q|·10^P) < 10^(9−sign)`). -/
theorem field_width_amended (d : DecNum) (q : ℚ) (P : ℤ) :
    (format_opt d).length = max 10 (pyFloatStr d).length ∧
    (fixed_width_precision q = .ok P →
      round (|q| * 10 ^ P.toNat) < (10 : ℤ) ^ ((9 - (if q < 0 then 1 else 0) : ℕ)) →
      (coordField P q).length = 10) := by
  constructor
  · exact ljust_length 10 (pyFloatStr d)
  · intro hP hr
    obtain ⟨h3, h8⟩ := fixed_width_precision_bounds q P hP
    set s : ℕ := if q < 0 then 1 else 0 with hs
    have hq01 : (if q < 0 then (1 : ℤ) else 0) = (s : ℤ) := by
      rw [hs]; split <;> simp
    rw [hq01] at h8
    have hsle : s ≤ 1 := by rw [hs]; split <;> omega
    have h8' : P.toNat + s ≤ 8 := by omega
    have hn0 : 0 ≤ round (|q| * 10 ^ P.toNat) := by
      rw [round_eq]
      exact Int.le_floor.mpr (by positivity)
    have hcast : ((10 : ℤ) ^ (9 - s)) = ((10 ^ (9 - s) : ℕ) : ℤ) := by push_cast; ring
    set n : ℕ := (round (|q| * 10 ^ P.toNat)).toNat with hn
    have hnlt : n < 10 ^ (9 - s) := by omega
    have hkpos : 1 ≤ 9 - s - P.toNat := by omega
    have hdiv : n / 10 ^ P.toNat < 10 ^ (9 - s - P.toNat) := by
      rw [Nat.div_lt_iff_lt_mul (by positivity)]
      calc n < 10 ^ (9 - s) := hnlt
        _ = 10 ^ (9 - s - P.toNat) * 10 ^ P.toNat := by
            rw [← pow_add]
            congr 1
            omega
    have hdlen : (natToDec (n / 10 ^ P.toNat)).length ≤ 9 - s - P.toNat :=
      natToDec_length_le _ _ hkpos hdiv
    have hflen : (fracPad P.toNat (n % 10 ^ P.toNat)).length = P.toNat :=
      fracPad_length _ _ (natDigits_length_le _ _ (by omega)
        (Nat.mod_lt _ (by positivity)))
    have hslen : (if q < 0 then "-" else "").length = s := by
      rw [hs]; split <;> rfl
    have hlen : (formatFixed P.toNat q).length ≤ 10 := by
      rw [formatFixed, if_neg (by omega : ¬ P.toNat = 0)]
      rw [← hn]
      rw [length_append, length_append, length_append, hslen, hflen]
      have hdot : (".").length = 1 := rfl
      rw [hdot]
      omega
    rw [coordField, ljust_length]
    omega

/-- Witness for C1's amended claim: at `1.5` (decimal string `"1.5"` of
length 3) the value field is padded to 10; the coordinate field for `7`
(precision 8, `round(7·10^8) < 10^9`) is exactly 10 wide. -/
theorem field_width_amended_witness :
    (format_opt ⟨15, 1⟩).length = max 10 (pyFloatStr ⟨15, 1⟩).length ∧
    (coordField 8 7).length = 10 := by
  refine ⟨(field_width_amended ⟨15, 1⟩ 7 8).1, (field_width_amended ⟨15, 1⟩ 7 8).2 ?_ ?_⟩
  · exact fwp_small 7 (by norm_num) (by norm_num)
  · have h8 : (8 : ℤ).toNat = (8 : ℕ) := rfl
    rw [h8]
    norm_num

/-! ### Claims C4, C5: deck assembly -/

theorem string_append_assoc (a b c : String) : a ++ b ++ c = a ++ (b ++ c) := by
  cases a with | mk la =>
  cases b with | mk lb =>
  cases c with | mk lc =>
  show String.mk (la ++ lb ++ lc) = String.mk (la ++ (lb ++ lc))
  rw [List.append_assoc]

theorem write_foldl (d : Deck) (acc : String) :
    (d.foldl (fun acc p => acc ++ ("$" ++ p.1 ++ "\n" ++ p.2)) acc) ++ "$end" =
      acc ++ specDeckRender d := by
  induction d generalizing acc with
  | nil => simp [specDeckRender]
  | cons p d ih =>
    rw [List.foldl_cons, ih, specDeckRender]
    rw [string_append_assoc, string_append_assoc, string_append_assoc]

theorem mem_keys_iff_any (d : Deck) (k : String) :
    (d.any (fun p => decide (p.1 = k))) = true ↔ k ∈ d.map Prod.fst := by
  rw [List.any_eq_true]
  constructor
  · rintro ⟨p, hp, he⟩
    simp at he
    exact List.mem_map.mpr ⟨p, hp, he.symm ▸ rfl⟩
  · rintro h
    obtain ⟨p, hp, he⟩ := List.mem_map.mp h
    exact ⟨p, hp, by simp [he]⟩

theorem odInsert_keys (d : Deck) (k v : String) :
    (odInsert d k v).map Prod.fst =
      if k ∈ d.map Prod.fst then d.map Prod.fst else d.map Prod.fst ++ [k] := by
  unfold odInsert
  by_cases h : (d.any (fun p => decide (p.1 = k))) = true
  · rw [if_pos h, if_pos ((mem_keys_iff_any d k).mp h)]
    rw [List.map_map]
    apply List.map_congr_left
    intro p _
    by_cases hp : p.1 = k
    · simp [hp]
    · simp [hp]
  · rw [if_neg h, if_neg (fun hm => h ((mem_keys_iff_any d k).mpr hm))]
    simp

theorem buildDeck_keys (ops : List (String × String)) :
    (buildDeck ops).map Prod.fst = firstInsertionOrder (ops.map Prod.fst) := by
  suffices hgen : ∀ (d : Deck),
      (ops.foldl (fun d p => odInsert d p.1 p.2) d).map Prod.fst =
        (ops.map Prod.fst).foldl (fun acc n => if n ∈ acc then acc else acc ++ [n])
          (d.map Prod.fst) by
    exact hgen []
  induction ops with
  | nil => intro d; rfl
  | cons p ops ih =>
    intro d
    rw [List.foldl_cons, List.map_cons, List.foldl_cons, ih, odInsert_keys]

theorem firstInsertionOrder_mem (l : List String) (n : String) :
    n ∈ firstInsertionOrder l ↔ n ∈ l := by
  suffices hgen : ∀ acc : List String,
      n ∈ l.foldl (fun acc m => if m ∈ acc then acc else acc ++ [m]) acc ↔
        n ∈ acc ∨ n ∈ l by
    have := hgen []
    simpa [firstInsertionOrder] using this
  induction l with
  | nil => intro acc; simp
  | cons m l ih =>
    intro acc
    rw [List.foldl_cons, ih]
    by_cases hm : m ∈ acc
    · rw [if_pos hm]
      constructor
      · rintro (h | h)
        · exact Or.inl h
        · exact Or.inr (List.mem_cons_of_mem m h)
      · rintro (h | h)
        · exact Or.inl h
        · rcases List.mem_cons.mp h with rfl | h
          · exact Or.inl hm
          · exact Or.inr h
    · rw [if_neg hm]
      simp [List.mem_append, List.mem_cons]
      tauto

/-- C4 (confirmed): the serialized deck is, for each stored block in
insertion order, a line `$`+name followed by the block text, then the
literal `$end`; block names in the deck are exactly the inserted names, in
first-insertion order. -/
theorem deck_serialization (ops : List (String × String)) :
    write_inputfile (buildDeck ops) = specDeckRender (buildDeck ops) ∧
    (buildDeck ops).map Prod.fst = firstInsertionOrder (ops.map Prod.fst) ∧
    ∀ n, n ∈ (buildDeck ops).map Prod.fst ↔ n ∈ ops.map Prod.fst := by
  refine ⟨?_, buildDeck_keys ops, ?_⟩
  · have h := write_foldl (buildDeck ops) ""
    rw [write_inputfile, h]
    cases specDeckRender (buildDeck ops) with | mk l => rfl
  · intro n
    rw [buildDeck_keys, firstInsertionOrder_mem]

theorem find_replace (d : Deck) (k v : String) :
    (d.map (fun p => if p.1 = k then (k, v) else p)).find? (fun p => decide (p.1 = k)) =
      if (d.any (fun p => decide (p.1 = k))) = true then some (k, v) else none := by
  induction d with
  | nil => simp
  | cons p d ih =>
    by_cases hp : p.1 = k
    · simp [List.find?, hp]
    · simp only [List.map_cons, List.find?, if_neg hp, List.any_cons]
      simp only [decide_eq_false hp, Bool.false_or]
      rw [ih]

theorem find_append_self (d : Deck) (k v : String)
    (h : ¬ (d.any (fun p => decide (p.1 = k))) = true) :
    (d ++ [(k, v)]).find? (fun p => decide (p.1 = k)) = some (k, v) := by
  induction d with
  | nil => simp [List.find?]
  | cons p d ih =>
    simp only [List.any_cons, Bool.or_eq_true, not_or] at h
    simp only [List.cons_append, List.find?, h.1]
    exact ih h.2

theorem odLookup_odInsert (d : Deck) (k v : String) :
    odLookup (odInsert d k v) k = some v := by
  unfold odLookup odInsert
  by_cases h : (d.any (fun p => decide (p.1 = k))) = true
  · rw [if_pos h, find_replace, if_pos h]
    rfl
  · rw [if_neg h, find_append_self d k v h]
    rfl

/-- C5 (confirmed): re-invoking a builder for an already-present block name
replaces the stored text but leaves the deck's name order — hence the
block's position in the serialization — unchanged. -/
theorem rebuild_keeps_position (ops : List (String × String)) (k v : String)
    (h : k ∈ (buildDeck ops).map Prod.fst) :
    (buildDeck (ops ++ [(k, v)])).map Prod.fst = (buildDeck ops).map Prod.fst ∧
    odLookup (buildDeck (ops ++ [(k, v)])) k = some v := by
  have hb : buildDeck (ops ++ [(k, v)]) = odInsert (buildDeck ops) k v := by
    rw [buildDeck, List.foldl_append, List.foldl_cons, List.foldl_nil]
    rfl
  refine ⟨?_, by rw [hb]; exact odLookup_odInsert _ k v⟩
  rw [hb, odInsert_keys, if_pos h]

/-! ### Claim C6: two-per-line point packing -/

theorem string_ext {s t : String} (h : s.data = t.data) : s = t := by
  cases s; cases t
  exact congrArg String.mk h

theorem data_empty : ("" : String).data = [] := rfl

theorem noNL_append {s t : String} (hs : noNL s) (ht : noNL t) : noNL (s ++ t) := by
  unfold noNL at *
  rw [data_append, List.mem_append]
  tauto

theorem nl_not_mem_natDigitsAux (fuel n : Nat) : '\n' ∉ natDigitsAux fuel n := by
  induction fuel generalizing n with
  | zero => simp [natDigitsAux]
  | succ fuel ih =>
    rw [natDigitsAux]
    split
    · simp
    · rw [List.mem_append]
      rintro (h | h)
      · exact ih _ h
      · have h10 : n % 10 < 10 := Nat.mod_lt _ (by norm_num)
        simp only [List.mem_singleton] at h
        revert h
        interval_cases hm : (n % 10) <;> decide

theorem noNL_natToDec (n : Nat) : noNL (natToDec n) := by
  unfold noNL natToDec natDigits
  split
  · decide
  · exact nl_not_mem_natDigitsAux n n

theorem noNL_intToDec (i : Int) : noNL (intToDec i) := by
  unfold intToDec
  apply noNL_append _ (noNL_natToDec _)
  split <;> decide

theorem noNL_replicate (k : Nat) (c : Char) (hc : ¬ c = '\n') :
    noNL (String.mk (List.replicate k c)) := by
  unfold noNL
  intro h
  exact hc ((List.eq_of_mem_replicate h).symm)

theorem noNL_fracPad (P m : Nat) : noNL (fracPad P m) :=
  noNL_append (noNL_replicate _ _ (by decide)) (noNL_natToDec m)

theorem noNL_pyFloatStr (d : DecNum) : noNL (pyFloatStr d) := by
  unfold pyFloatStr
  split
  · exact noNL_append (noNL_intToDec _) (by decide)
  · refine noNL_append (noNL_append (noNL_append ?_ (noNL_natToDec _)) (by decide))
      (noNL_fracPad _ _)
    split <;> decide

theorem noNL_format_opt (d : DecNum) : noNL (format_opt d) :=
  noNL_append (noNL_pyFloatStr d) (noNL_replicate _ _ (by decide))

theorem noNL_formatFixed (P : Nat) (q : ℚ) : noNL (formatFixed P q) := by
  unfold formatFixed
  split
  · refine noNL_append ?_ (noNL_natToDec _)
    split <;> decide
  · refine noNL_append (noNL_append (noNL_append ?_ (noNL_natToDec _)) (by decide))
      (noNL_fracPad _ _)
    split <;> decide

theorem noNL_coordField (P : ℤ) (q : ℚ) : noNL (coordField P q) :=
  noNL_append (noNL_formatFixed _ _) (noNL_replicate _ _ (by decide))

theorem noNL_format_coord {c : Coord} {s : String} (h : format_coord c = .ok s) :
    noNL s := by
  unfold format_coord at h
  split at h <;> simp_all
  subst h
  exact noNL_append (noNL_append (noNL_coordField _ _) (noNL_coordField _ _))
    (noNL_coordField _ _)

theorem countNL_append (s t : String) : countNL (s ++ t) = countNL s + countNL t := by
  unfold countNL
  rw [data_append, List.count_append]

theorem countNL_of_noNL {s : String} (h : noNL s) : countNL s = 0 :=
  List.count_eq_zero.mpr h

theorem countNL_pairsRender (ss : List String) (h : ∀ s ∈ ss, noNL s) :
    countNL (pairsRender ss) = (ss.length + 1) / 2 := by
  induction ss using listPairInduction with
  | h0 => decide
  | h1 a =>
    rw [pairsRender, countNL_append, countNL_of_noNL (h a (by simp))]
    have hnl : countNL "\n" = 1 := by decide
    rw [hnl]
    simp
  | h2 a b l ih =>
    rw [pairsRender, countNL_append, countNL_append, countNL_append,
      countNL_of_noNL (h a (by simp)), countNL_of_noNL (h b (by simp)),
      ih (fun s hs => h s (by simp [hs]))]
    have hnl : countNL "\n" = 1 := by decide
    rw [hnl]
    simp only [List.length_cons]
    omega

theorem mapExcept_cons_mk {α β : Type _} {f : α → Except String β} {a : α} {l : List α}
    {b : β} {bs : List β} (ha : f a = .ok b) (hl : mapExcept f l = .ok bs) :
    mapExcept f (a :: l) = .ok (b :: bs) := by
  unfold mapExcept
  rw [ha, hl]

theorem mapExcept_cons_inv {α β : Type _} {f : α → Except String β} {a : α} {l : List α}
    {ys : List β} (h : mapExcept f (a :: l) = .ok ys) :
    ∃ b bs, f a = .ok b ∧ mapExcept f l = .ok bs ∧ ys = b :: bs := by
  unfold mapExcept at h
  cases hfa : f a with
  | error e => simp [hfa] at h
  | ok b =>
    cases hml : mapExcept f l with
    | error e => simp [hfa, hml] at h
    | ok bs =>
      simp only [hfa, hml] at h
      injection h with h
      exact ⟨b, bs, rfl, rfl, h.symm⟩

theorem mapExcept_length {α β : Type _} {f : α → Except String β} :
    ∀ {l : List α} {ys : List β}, mapExcept f l = .ok ys → ys.length = l.length := by
  intro l
  induction l with
  | nil =>
    intro ys h
    unfold mapExcept at h
    injection h with h
    rw [← h]
    rfl
  | cons a l ih =>
    intro ys h
    obtain ⟨b, bs, _, hml, rfl⟩ := mapExcept_cons_inv h
    simp [ih hml]

theorem mapExcept_mem {α β : Type _} {f : α → Except String β} :
    ∀ {l : List α} {ys : List β}, mapExcept f l = .ok ys →
      ∀ y ∈ ys, ∃ x ∈ l, f x = .ok y := by
  intro l
  induction l with
  | nil =>
    intro ys h
    unfold mapExcept at h
    injection h with h
    rw [← h]
    simp
  | cons a l ih =>
    intro ys h
    obtain ⟨b, bs, hfa, hml, rfl⟩ := mapExcept_cons_inv h
    intro y hy
    rcases List.mem_cons.mp hy with rfl | hy
    · exact ⟨a, by simp, hfa⟩
    · obtain ⟨x, hx, hfx⟩ := ih hml y hy
      exact ⟨x, by simp [hx], hfx⟩

theorem emitPoints_eq_cons (j : Nat) (p : Coord) (rest : List Coord) :
    emitPoints j (p :: rest) = match format_coord p, emitPoints (j + 1) rest with
      | .ok s, .ok t => .ok (s ++ (if (j + 1) % 2 = 0 then "\n" else "") ++ t)
      | .error e, _ => .error e
      | .ok _, .error e => .error e := rfl

theorem emitPoints_cons {j : Nat} {p : Coord} {rest : List Coord} {s t : String}
    (hp : format_coord p = .ok s) (ht : emitPoints (j + 1) rest = .ok t) :
    emitPoints j (p :: rest) = .ok (s ++ (if (j + 1) % 2 = 0 then "\n" else "") ++ t) := by
  rw [emitPoints_eq_cons, hp, ht]

theorem emitPoints_even (row : List Coord) : ∀ (ss : List String) (j : Nat),
    j % 2 = 0 → mapExcept format_coord row = .ok ss →
    emitPoints j row = .ok (emitPairs ss) := by
  induction row using listPairInduction with
  | h0 =>
    intro ss j _ h
    unfold mapExcept at h
    injection h with h
    rw [← h]
    rfl
  | h1 a =>
    intro ss j hj h
    obtain ⟨sa, bs, hfa, hml, rfl⟩ := mapExcept_cons_inv h
    unfold mapExcept at hml
    injection hml with hml
    rw [← hml]
    rw [emitPoints_cons hfa (by rfl), if_neg (by omega)]
    have he : sa ++ "" ++ "" = sa := string_ext (by simp [data_append, data_empty])
    rw [he]
    rfl
  | h2 a b l ih =>
    intro ss j hj h
    obtain ⟨sa, bs1, hfa, hml1, rfl⟩ := mapExcept_cons_inv h
    obtain ⟨sb, bs, hfb, hml, rfl⟩ := mapExcept_cons_inv hml1
    have hrec := ih bs (j + 2) (by omega) hml
    rw [emitPoints_cons hfa (emitPoints_cons hfb hrec), if_neg (by omega),
      if_pos (by omega)]
    have he : sa ++ "" ++ (sb ++ "\n" ++ emitPairs bs) =
        sa ++ sb ++ "\n" ++ emitPairs bs :=
      string_ext (by simp [data_append, data_empty])
    rw [he, emitPairs]

theorem pairsRender_emitPairs (ss : List String) :
    pairsRender ss = emitPairs ss ++ (if ¬ ss.length % 2 = 0 then "\n" else "") := by
  induction ss using listPairInduction with
  | h0 => rfl
  | h1 a => rfl
  | h2 a b l ih =>
    rw [pairsRender, emitPairs, ih]
    simp only [List.length_cons]
    by_cases hl : l.length % 2 = 0
    · rw [if_neg (by omega), if_neg (by omega)]
      exact string_ext (by simp [data_append, data_empty])
    · rw [if_pos (by omega), if_pos (by omega)]
      exact string_ext (by simp [data_append])
/-- Witness for C5: invoking the `mach` builder twice keeps the single
`MACH NUMBER` entry in place and stores the second rendering. -/
theorem rebuild_keeps_position_witness :
    (buildDeck [("MACH NUMBER", machText ⟨15, 1⟩), ("MACH NUMBER", machText ⟨12, 1⟩)]).map
        Prod.fst =
      (buildDeck [("MACH NUMBER", machText ⟨15, 1⟩)]).map Prod.fst ∧
    odLookup (buildDeck [("MACH NUMBER", machText ⟨15, 1⟩), ("MACH NUMBER", machText ⟨12, 1⟩)])
        "MACH NUMBER" = some (machText ⟨12, 1⟩) := by
  have h := rebuild_keeps_position [("MACH NUMBER", machText ⟨15, 1⟩)] "MACH NUMBER"
    (machText ⟨12, 1⟩) (by simp [buildDeck, odInsert])
  exact h

theorem emitRow_pairs {row : List Coord} {ss : List String}
    (h : mapExcept format_coord row = .ok ss) :
    emitRow row = .ok (pairsRender ss) := by
  have hep := emitPoints_even row ss 0 (by norm_num) h
  unfold emitRow
  rw [hep, pairsRender_emitPairs ss, mapExcept_length h]

theorem emitPoints_ok_exists :
    ∀ {row : List Coord} {j : Nat} {t : String}, emitPoints j row = .ok t →
      ∃ ss, mapExcept format_coord row = .ok ss := by
  intro row
  induction row with
  | nil => exact fun _ => ⟨[], rfl⟩
  | cons p rest ih =>
    intro j t h
    rw [emitPoints_eq_cons] at h
    cases hfp : format_coord p with
    | error e => rw [hfp] at h; exact Except.noConfusion h
    | ok s =>
      cases hrest : emitPoints (j + 1) rest with
      | error e => rw [hfp, hrest] at h; exact Except.noConfusion h
      | ok t2 =>
        obtain ⟨ss2, hss2⟩ := ih hrest
        exact ⟨s :: ss2, mapExcept_cons_mk hfp hss2⟩

theorem emitRow_ok_countNL {row : List Coord} {t : String} (h : emitRow row = .ok t) :
    countNL t = (row.length + 1) / 2 := by
  unfold emitRow at h
  cases hep : emitPoints 0 row with
  | error e => rw [hep] at h; exact Except.noConfusion h
  | ok body =>
    obtain ⟨ss, hss⟩ := emitPoints_ok_exists hep
    have hpr := emitRow_pairs hss
    unfold emitRow at hpr
    rw [hep] at h hpr
    have ht : t = pairsRender ss := by
      injection h with h
      injection hpr with hpr
      rw [← h, hpr]
    have hnl : ∀ s ∈ ss, noNL s := by
      intro s hs
      obtain ⟨x, _, hfx⟩ := mapExcept_mem hss s hs
      exact noNL_format_coord hfx
    rw [ht, countNL_pairsRender ss hnl, mapExcept_length hss]

theorem noNL_concatAll {l : List String} (h : ∀ s ∈ l, noNL s) : noNL (concatAll l) := by
  induction l with
  | nil => decide
  | cons s rest ih =>
    rw [concatAll]
    exact noNL_append (h s (by simp)) (ih (fun x hx => h x (by simp [hx])))

theorem countNL_concatAll_const (rows : List String) (c : Nat)
    (h : ∀ r ∈ rows, countNL r = c) : countNL (concatAll rows) = rows.length * c := by
  induction rows with
  | nil => simp [concatAll, countNL, data_empty]
  | cons r rest ih =>
    rw [concatAll, countNL_append, h r (by simp), ih (fun x hx => h x (by simp [hx]))]
    simp only [List.length_cons]
    ring

theorem countNL_format_inputline (values : List DecNum) :
    countNL (format_inputline values) = 1 := by
  unfold format_inputline
  rw [countNL_append]
  have h0 : countNL (concatAll (values.map format_opt)) = 0 := by
    apply countNL_of_noNL
    apply noNL_concatAll
    intro s hs
    obtain ⟨d, _, rfl⟩ := List.mem_map.mp hs
    exact noNL_format_opt d
  rw [h0]
  decide

/-- C6 (confirmed): coordinate points of a geometry record — a network row
or the off-body point list — are packed two per output line, a newline
closing each completed pair, and an odd point count gets one extra blank
line, so each record's newline count is the deterministic `(count+1)/2`;
consequently a whole network block with `nn` rows of `nm` points has
exactly `2 + nn*((nm+1)/2)` newlines. -/
theorem two_per_line_packing :
    (∀ (row : List Coord) (ss : List String),
      mapExcept format_coord row = .ok ss →
      emitRow row = .ok (pairsRender ss) ∧
      countNL (pairsRender ss) = (row.length + 1) / 2) ∧
    (∀ (isk1 : Nat) (points : Nat → Coord) (ss : List String),
      mapExcept format_coord ((List.range isk1).map points) = .ok ss →
      xyz_offbody isk1 points =
        .ok (format_header ["isk1"] ++ format_inputline [⟨isk1, 0⟩] ++
          format_header ["xof", "yof", "zof", "xof", "yof", "zof"] ++ pairsRender ss)) ∧
    (∀ (netname : String) (nn nm : Nat) (points : Nat → Nat → Coord) (t : String),
      noNL netname → gen_network_inp netname nn nm points = .ok t →
      countNL t = 2 + nn * ((nm + 1) / 2)) := by
  refine ⟨?_, ?_, ?_⟩
  · intro row ss h
    refine ⟨emitRow_pairs h, ?_⟩
    have hnl : ∀ s ∈ ss, noNL s := by
      intro s hs
      obtain ⟨x, _, hfx⟩ := mapExcept_mem h s hs
      exact noNL_format_coord hfx
    rw [countNL_pairsRender ss hnl, mapExcept_length h]
  · intro isk1 points ss h
    unfold xyz_offbody
    rw [emitRow_pairs h]
  · intro netname nn nm points t hname h
    unfold gen_network_inp at h
    cases hrows : mapExcept (fun i => emitRow ((List.range nm).map (points i)))
        (List.range nn) with
    | error e => rw [hrows] at h; exact Except.noConfusion h
    | ok rows =>
      rw [hrows] at h
      injection h with h
      rw [← h]
      have hrowc : ∀ r ∈ rows, countNL r = (nm + 1) / 2 := by
        intro r hr
        obtain ⟨i, _, hfi⟩ := mapExcept_mem hrows r hr
        have hc := emitRow_ok_countNL hfi
        rwa [List.length_map, List.length_range] at hc
      have hlenr : rows.length = nn := by
        have hl := mapExcept_length hrows
        rwa [List.length_range] at hl
      rw [countNL_append, countNL_append]
      have h1 : countNL ("=nm       nn                                             " ++
          "    " ++ netname ++ "\n") = 1 := by
        rw [countNL_append, countNL_append, countNL_append, countNL_of_noNL hname]
        decide
      rw [h1, countNL_format_inputline,
        countNL_concatAll_const rows _ hrowc, hlenr]

/-- Witness for C6: a single point at the origin gives one pair line; a
1×1 network block has `2 + 1*1 = 3` newlines. -/
theorem two_per_line_packing_witness :
    emitRow [((0 : ℚ), 0, 0)] =
      .ok (pairsRender [coordField 8 0 ++ coordField 8 0 ++ coordField 8 0]) ∧
    countNL (pairsRender [coordField 8 0 ++ coordField 8 0 ++ coordField 8 0]) = 1 ∧
    (∃ t, gen_network_inp "wing" 1 1 (fun _ _ => ((0 : ℚ), 0, 0)) = .ok t ∧
      countNL t = 3) := by
  have hfc : format_coord ((0 : ℚ), 0, 0) =
      .ok (coordField 8 0 ++ coordField 8 0 ++ coordField 8 0) := by
    unfold format_coord
    rw [fwp_small 0 le_rfl (by norm_num)]
  have hmap : mapExcept format_coord [((0 : ℚ), 0, 0)] =
      .ok [coordField 8 0 ++ coordField 8 0 ++ coordField 8 0] :=
    mapExcept_cons_mk hfc rfl
  have hpart := two_per_line_packing.1 [((0 : ℚ), 0, 0)] _ hmap
  refine ⟨hpart.1, hpart.2, ?_⟩
  have hrowmap : mapExcept (fun i => emitRow ((List.range 1).map
      ((fun _ _ => ((0 : ℚ), 0, 0)) i))) (List.range 1) =
      .ok [pairsRender [coordField 8 0 ++ coordField 8 0 ++ coordField 8 0]] := by
    have hr1 : List.range 1 = [0] := by simp [List.range_succ]
    rw [hr1]
    exact mapExcept_cons_mk hpart.1 rfl
  have hgen : gen_network_inp "wing" 1 1 (fun _ _ => ((0 : ℚ), 0, 0)) =
      .ok (("=nm       nn                                             " ++ "    " ++
        "wing" ++ "\n") ++ format_inputline [⟨1, 0⟩, ⟨1, 0⟩] ++
        concatAll [pairsRender [coordField 8 0 ++ coordField 8 0 ++ coordField 8 0]]) := by
    unfold gen_network_inp
    rw [hrowmap]
    rfl
  exact ⟨_, hgen, by
    have hc := two_per_line_packing.2.2 "wing" 1 1 _ _ (by decide) hgen
    simpa using hc⟩

/-! ### Claim C7: the block locator -/

theorem findIdx?_eq_some_of {α : Type _} (d : α) (p : α → Bool) :
    ∀ (l : List α) (i s : Nat), i < l.length → p (l.getD i d) = true →
      (∀ j, j < i → p (l.getD j d) = false) → l.findIdx? p s = some (s + i) := by
  intro l
  induction l with
  | nil => intro i s h; simp at h
  | cons x xs ih =>
    intro i s hlen hp hmin
    rw [List.findIdx?_cons]
    cases i with
    | zero =>
      rw [if_pos (by simpa using hp)]
      simp
    | succ i =>
      have hx : p x = false := by
        have h0 := hmin 0 (by omega)
        simpa using h0
      rw [if_neg (by simp [hx])]
      have hr := ih i (s + 1) (by simpa using hlen) (by simpa using hp)
        (fun j hj => by
          have hj1 := hmin (j + 1) (by omega)
          simpa using hj1)
      rw [hr]
      exact congrArg some (by omega)

theorem findIdx?_eq_some_zero {α : Type _} (d : α) (p : α → Bool) (l : List α) (i : Nat)
    (hlen : i < l.length) (hp : p (l.getD i d) = true)
    (hmin : ∀ j, j < i → p (l.getD j d) = false) : l.findIdx? p = some i := by
  have h := findIdx?_eq_some_of d p l i 0 hlen hp hmin
  simpa using h

theorem getD_drop (l : List String) (n j : Nat) :
    (l.drop n).getD j "" = l.getD (n + j) "" := by
  simp [List.getD_eq_getElem?_getD, List.getElem?_drop]

/-- C7 (confirmed): when some line contains `0*b*`+name (first such at
index `b`) and some line at or after it contains `0*e*`+name (first such
at index `e`), `_get_block` returns exactly the lines strictly between
the two marker lines, both markers excluded. -/
theorem block_locator (lines : List String) (name : String) (b e : Nat)
    (hblen : b < lines.length)
    (hbf : strIn ("0*b*" ++ name) (lines.getD b "") = true)
    (hbmin : ∀ j, j < b → strIn ("0*b*" ++ name) (lines.getD j "") = false)
    (hbe : b ≤ e) (helen : e < lines.length)
    (hef : strIn ("0*e*" ++ name) (lines.getD e "") = true)
    (hemin : ∀ j, j < e → b ≤ j → strIn ("0*e*" ++ name) (lines.getD j "") = false) :
    get_block lines name = some ((lines.drop (b + 1)).take (e - (b + 1))) := by
  unfold get_block
  rw [findIdx?_eq_some_zero "" _ lines b hblen hbf hbmin]
  show (match (lines.drop b).findIdx? (fun l => strIn ("0*e*" ++ name) l) with
    | none => none
    | some o => some ((lines.drop (b + 1)).take (b + o - (b + 1)))) = _
  have hsec : (lines.drop b).findIdx? (fun l => strIn ("0*e*" ++ name) l) =
      some (e - b) := by
    apply findIdx?_eq_some_zero
    · rw [List.length_drop]
      omega
    · rw [getD_drop]
      have hbeb : b + (e - b) = e := by omega
      rw [hbeb]
      exact hef
    · intro j hj
      rw [getD_drop]
      exact hemin (b + j) (by omega) (by omega)
  rw [hsec]
  show some ((lines.drop (b + 1)).take (b + (e - b) - (b + 1))) = _
  have harith : b + (e - b) - (b + 1) = e - (b + 1) := by omega
  rw [harith]

/-- Witness for C7: the spec's `off-body` example — interior lines `"a"`,
`"b"` are returned, both marker lines excluded. -/
theorem block_locator_witness :
    get_block ["x", "0*b*off-body", "a", "b", "0*e*off-body", "y"] "off-body" =
      some ["a", "b"] := by
  have h := block_locator ["x", "0*b*off-body", "a", "b", "0*e*off-body", "y"]
    "off-body" 1 4 (by decide) (by decide) (by decide) (by decide) (by decide)
    (by decide) (by decide)
  exact h

/-! ### Claims C8, C10: the sample-file parser -/

theorem mem_natDigitsAux {fuel n : Nat} {ch : Char} (h : ch ∈ natDigitsAux fuel n) :
    ∃ d, d < 10 ∧ ch = natDigitChar d := by
  induction fuel generalizing n with
  | zero => simp [natDigitsAux] at h
  | succ fuel ih =>
    rw [natDigitsAux] at h
    split at h
    · simp at h
    · rcases List.mem_append.mp h with h | h
      · exact ih h
      · simp only [List.mem_singleton] at h
        exact ⟨n % 10, Nat.mod_lt _ (by norm_num), h⟩

theorem mem_natDigits {n : Nat} {ch : Char} (h : ch ∈ natDigits n) :
    ∃ d, d < 10 ∧ ch = natDigitChar d := by
  unfold natDigits at h
  split at h
  · simp at h
    exact ⟨0, by norm_num, by rw [h]; rfl⟩
  · exact mem_natDigitsAux h

theorem digitVal_natDigitChar {d : Nat} (hd : d < 10) :
    digitVal (natDigitChar d) = some d := by
  interval_cases d <;> decide

theorem natDigitChar_not_special {d : Nat} (hd : d < 10) :
    natDigitChar d ≠ 'c' ∧ natDigitChar d ≠ '-' ∧ natDigitChar d ≠ '+' ∧
      isSpace (natDigitChar d) = false := by
  interval_cases d <;> exact ⟨by decide, by decide, by decide, by decide⟩

theorem parseNatAux_append (xs ys : List Char) :
    ∀ acc, parseNatAux acc (xs ++ ys) =
      match parseNatAux acc xs with
      | some a => parseNatAux a ys
      | none => none := by
  induction xs with
  | nil => intro acc; rfl
  | cons c xs ih =>
    intro acc
    rw [List.cons_append]
    cases hd : digitVal c with
    | none => simp [parseNatAux, hd]
    | some d =>
      simp only [parseNatAux, hd]
      exact ih (acc * 10 + d)

theorem parseNatAux_append_some {xs : List Char} {acc a : Nat}
    (h : parseNatAux acc xs = some a) (ys : List Char) :
    parseNatAux acc (xs ++ ys) = parseNatAux a ys := by
  rw [parseNatAux_append xs ys acc, h]

theorem parseNatAux_single (a d : Nat) (hd : d < 10) :
    parseNatAux a [natDigitChar d] = some (a * 10 + d) := by
  simp [parseNatAux, digitVal_natDigitChar hd]

theorem parseNatAux_natDigitsAux :
    ∀ (fuel n acc : Nat), n ≤ fuel →
      parseNatAux acc (natDigitsAux fuel n) =
        some (acc * 10 ^ (natDigitsAux fuel n).length + n) := by
  intro fuel
  induction fuel with
  | zero =>
    intro n acc h
    interval_cases n
    simp [natDigitsAux, parseNatAux]
  | succ fuel ih =>
    intro n acc h
    by_cases hn : n = 0
    · simp [natDigitsAux, hn, parseNatAux]
    · rw [natDigitsAux, if_neg hn]
      have hrec := ih (n / 10) acc (by omega)
      rw [parseNatAux_append_some hrec, parseNatAux_single _ _ (Nat.mod_lt _ (by norm_num))]
      have hlen : (natDigitsAux fuel (n / 10) ++ [natDigitChar (n % 10)]).length =
          (natDigitsAux fuel (n / 10)).length + 1 := by
        rw [List.length_append, List.length_singleton]
      rw [hlen]
      refine congrArg some ?_
      have hdm := Nat.div_add_mod n 10
      have hpow : 10 ^ ((natDigitsAux fuel (n / 10)).length + 1) =
          10 ^ (natDigitsAux fuel (n / 10)).length * 10 := by
        rw [pow_succ]
      rw [hpow]
      set X : Nat := 10 ^ (natDigitsAux fuel (n / 10)).length
      set Y : Nat := acc * X
      have hy : acc * (X * 10) = Y * 10 := by rw [← Nat.mul_assoc]
      rw [hy]
      omega

theorem natDigits_ne_nil (n : Nat) : natDigits n ≠ [] := by
  unfold natDigits
  split
  · simp
  · rename_i hn
    cases hf : n with
    | zero => exact absurd hf hn
    | succ m =>
      rw [natDigitsAux, if_neg (hf ▸ hn)]
      simp

theorem parseNatL_natDigits (n : Nat) : parseNatL (natDigits n) = some n := by
  by_cases hn : n = 0
  · rw [hn]; decide
  · unfold parseNatL
    rw [if_neg (by simpa using natDigits_ne_nil n)]
    unfold natDigits
    rw [if_neg hn]
    rw [parseNatAux_natDigitsAux n n 0 le_rfl]
    simp

theorem dropWhile_eq_self_of {p : Char → Bool} {l : List Char}
    (h : ∀ c ∈ l, p c = false) : l.dropWhile p = l := by
  cases l with
  | nil => rfl
  | cons a l =>
    rw [List.dropWhile_cons, if_neg (by simp [h a (by simp)])]

theorem stripWs_eq_self {l : List Char} (h : ∀ c ∈ l, isSpace c = false) :
    stripWs l = l := by
  unfold stripWs
  rw [dropWhile_eq_self_of h,
    dropWhile_eq_self_of (fun c hc => h c (List.mem_reverse.mp hc)),
    List.reverse_reverse]

theorem stripWs_natDigits (n : Nat) : stripWs (natDigits n) = natDigits n :=
  stripWs_eq_self (fun c hc => by
    obtain ⟨d, hd, rfl⟩ := mem_natDigits hc
    exact (natDigitChar_not_special hd).2.2.2)

theorem parseIntL_natDigits (n : Nat) : parseIntL (natDigits n) = some (n : Int) := by
  unfold parseIntL
  rw [stripWs_natDigits]
  cases hnd : natDigits n with
  | nil => exact absurd hnd (natDigits_ne_nil n)
  | cons h t =>
    have hdig : ∃ d, d < 10 ∧ h = natDigitChar d := mem_natDigits (by rw [hnd]; simp)
    obtain ⟨d, hd, rfl⟩ := hdig
    show (if natDigitChar d = '-' then (parseNatL t).map (fun n => -(n : Int))
      else if natDigitChar d = '+' then (parseNatL t).map (fun n => (n : Int))
      else (parseNatL (natDigitChar d :: t)).map (fun n => (n : Int))) = some (n : Int)
    rw [if_neg (natDigitChar_not_special hd).2.1,
      if_neg (natDigitChar_not_special hd).2.2.1, ← hnd, parseNatL_natDigits]
    rfl

theorem splitOnChar_not_mem {ch : Char} {l : List Char} (h : ch ∉ l) :
    splitOnChar ch l = [l] := by
  induction l with
  | nil => rfl
  | cons c l ih =>
    rw [splitOnChar, if_neg (by rintro rfl; exact h (by simp)),
      ih (fun hc => h (by simp [hc]))]

theorem splitOnChar_once {ch : Char} {l1 l2 : List Char} (h1 : ch ∉ l1) (h2 : ch ∉ l2) :
    splitOnChar ch (l1 ++ ch :: l2) = [l1, l2] := by
  induction l1 with
  | nil =>
    rw [List.nil_append, splitOnChar, if_pos rfl, splitOnChar_not_mem h2]
  | cons c l1 ih =>
    rw [List.cons_append, splitOnChar,
      if_neg (by rintro rfl; exact h1 (by simp)),
      ih (fun hc => h1 (by simp [hc]))]

theorem isPrefixOf_head_eq {a b : Char} {as bs l : List Char}
    (h : (a :: as).isPrefixOf l = true) (hne : b ≠ a) :
    (b :: bs).isPrefixOf l = false := by
  cases l with
  | nil => simp [List.isPrefixOf] at h
  | cons c cs =>
    have h' : (a == c && as.isPrefixOf cs) = true := h
    simp only [Bool.and_eq_true, beq_iff_eq] at h'
    obtain ⟨hac, _⟩ := h'
    show (b == c && bs.isPrefixOf cs) = false
    rw [← hac, beq_eq_false_iff_ne.mpr hne, Bool.false_and]

theorem not_starts_n_of_eof {line : String} (h : strStarts "*eof" line = true) :
    strStarts "n" line = false :=
  isPrefixOf_head_eq (show ('*' :: ['e', 'o', 'f']).isPrefixOf line.data = true from h) (by decide)

theorem not_starts_n_of_irow {line : String} (h : strStarts " irow" line = true) :
    strStarts "n" line = false :=
  isPrefixOf_head_eq (show (' ' :: ['i', 'r', 'o', 'w']).isPrefixOf line.data = true from h) (by decide)

theorem not_starts_eof_of_irow {line : String} (h : strStarts " irow" line = true) :
    strStarts "*eof" line = false :=
  isPrefixOf_head_eq (show (' ' :: ['i', 'r', 'o', 'w']).isPrefixOf line.data = true from h) (by decide)

theorem agps_step_ctx (n c : Int) (samples : List (List ℚ)) (np cp : Nat) :
    agps_step (n, c, samples) (String.mk ('n' :: (natDigits np ++ 'c' :: natDigits cp))) =
      .ok ((np : Int), (cp : Int), samples) := by
  have h1 : 'c' ∉ ('n' :: natDigits np) := by
    intro hmem
    rcases List.mem_cons.mp hmem with heq | hmem2
    · exact absurd heq (by decide)
    · obtain ⟨d, hd, hx⟩ := mem_natDigits hmem2
      exact (natDigitChar_not_special hd).1 hx.symm
  have h2 : 'c' ∉ natDigits cp := by
    intro hmem
    obtain ⟨d, hd, hx⟩ := mem_natDigits hmem
    exact (natDigitChar_not_special hd).1 hx.symm
  have hsplit : splitOnChar 'c' ('n' :: (natDigits np ++ 'c' :: natDigits cp)) =
      ['n' :: natDigits np, natDigits cp] := by
    have hl := splitOnChar_once h1 h2
    rwa [List.cons_append] at hl
  have hstart : strStarts "n"
      (String.mk ('n' :: (natDigits np ++ 'c' :: natDigits cp))) = true := by
    show (('n' : Char) :: ([] : List Char)).isPrefixOf
      ('n' :: (natDigits np ++ 'c' :: natDigits cp)) = true
    simp [List.isPrefixOf]
  unfold agps_step
  rw [if_pos hstart]
  have hdata : (String.mk ('n' :: (natDigits np ++ 'c' :: natDigits cp))).data =
      'n' :: (natDigits np ++ 'c' :: natDigits cp) := rfl
  rw [hdata, hsplit]
  show (match parseIntL (('n' :: natDigits np).drop 1), parseIntL (natDigits cp) with
    | some ni, some ci => Except.ok (ni, ci, samples)
    | _, _ => Except.error "ValueError") = _
  rw [show ('n' :: natDigits np).drop 1 = natDigits np from rfl,
    parseIntL_natDigits np, parseIntL_natDigits cp]

theorem agps_step_eof (n c : Int) (samples : List (List ℚ)) {line : String}
    (h : strStarts "*eof" line = true) :
    agps_step (n, c, samples) line = .ok (n, c, samples) := by
  unfold agps_step
  rw [if_neg (by simp [not_starts_n_of_eof h]), if_pos h]

theorem agps_step_irow (n c : Int) (samples : List (List ℚ)) {line : String}
    (h : strStarts " irow" line = true) :
    agps_step (n, c, samples) line = .ok (n, c, samples) := by
  unfold agps_step
  rw [if_neg (by simp [not_starts_n_of_irow h]),
    if_neg (by simp [not_starts_eof_of_irow h]), if_pos h]

theorem agps_step_data (n c : Int) (samples : List (List ℚ)) {line tok : String}
    {rest : List String} {r : Int} {vals : List ℚ}
    (hn : strStarts "n" line = false) (he : strStarts "*eof" line = false)
    (hi : strStarts " irow" line = false)
    (hsp : splitWs line = tok :: rest)
    (hr : parseIntL tok.data = some r)
    (hv : mapOpt (fun t => parseFloatL t.data) rest = some vals) :
    agps_step (n, c, samples) line =
      .ok (n, c, samples ++ [[(n : ℚ), (c : ℚ), (r : ℚ)] ++ vals]) := by
  unfold agps_step
  rw [if_neg (by simp [hn]), if_neg (by simp [he]), if_neg (by simp [hi]), hsp]
  show (match parseIntL tok.data, mapOpt (fun t => parseFloatL t.data) rest with
    | some r, some vals =>
      Except.ok (n, c, samples ++ [[(n : ℚ), (c : ℚ), (r : ℚ)] ++ vals])
    | _, _ => Except.error "ValueError") = _
  rw [hr, hv]

theorem agps_loop_nil (st : Int × Int × List (List ℚ)) : agps_loop st [] = .ok st := rfl

theorem agps_loop_cons (st : Int × Int × List (List ℚ)) (line : String)
    (rest : List String) :
    agps_loop st (line :: rest) = match agps_step st line with
      | .ok st2 => agps_loop st2 rest
      | .error e => .error e := rfl

theorem agps_loop_data (n c : Int) :
    ∀ (ds : List String) (samples : List (List ℚ)), (∀ d ∈ ds, isDataRow d = true) →
      ∃ tail, agps_loop (n, c, samples) ds = .ok (n, c, samples ++ tail) ∧
        tail.length = ds.length ∧ ∀ s ∈ tail, s.take 2 = [(n : ℚ), (c : ℚ)] := by
  intro ds
  induction ds with
  | nil =>
    intro samples _
    exact ⟨[], by simp [agps_loop_nil], by simp, by simp⟩
  | cons d ds ih =>
    intro samples h
    have hd := h d (by simp)
    unfold isDataRow at hd
    simp only [Bool.and_eq_true, Bool.not_eq_true'] at hd
    obtain ⟨⟨⟨hn, he⟩, hi⟩, hm⟩ := hd
    cases hsp : splitWs d with
    | nil => rw [hsp] at hm; simp at hm
    | cons tok rest =>
      rw [hsp] at hm
      simp only [Bool.and_eq_true, Option.isSome_iff_exists] at hm
      obtain ⟨⟨r, hr⟩, ⟨vals, hv⟩⟩ := hm
      have hstep := agps_step_data n c samples hn he hi hsp hr hv
      rw [agps_loop_cons, hstep]
      obtain ⟨tail, hloop, hlen, htail⟩ :=
        ih (samples ++ [[(n : ℚ), (c : ℚ), (r : ℚ)] ++ vals])
          (fun x hx => h x (by simp [hx]))
      refine ⟨[[(n : ℚ), (c : ℚ), (r : ℚ)] ++ vals] ++ tail, ?_, ?_, ?_⟩
      · show agps_loop (n, c, samples ++ [[(n : ℚ), (c : ℚ), (r : ℚ)] ++ vals]) ds = _
        rw [hloop, List.append_assoc]
      · simp [hlen]
      · intro s hs
        rcases List.mem_append.mp hs with hs1 | hs2
        · simp only [List.mem_singleton] at hs1
          rw [hs1]
          rfl
        · exact htail s hs2

/-- C8 (confirmed): a line matching the network/column pattern
(`n`+digits+`c`+digits) sets the active (network, column) context; lines
starting with the end-of-file marker or the row-header label are skipped;
any other (parsable) line yields exactly one sample whose row id is its
first token and whose values are the remaining tokens, tagged with the
active network and column; the context persists over every subsequent
data row until the next context line. -/
theorem agps_parser_state_machine :
    ∀ (n c : Int) (samples : List (List ℚ)),
      (∀ np cp : Nat,
        agps_step (n, c, samples)
            (String.mk ('n' :: (natDigits np ++ 'c' :: natDigits cp))) =
          .ok ((np : Int), (cp : Int), samples)) ∧
      (∀ line, strStarts "*eof" line = true →
        agps_step (n, c, samples) line = .ok (n, c, samples)) ∧
      (∀ line, strStarts " irow" line = true →
        agps_step (n, c, samples) line = .ok (n, c, samples)) ∧
      (∀ line tok rest r vals, strStarts "n" line = false →
        strStarts "*eof" line = false → strStarts " irow" line = false →
        splitWs line = tok :: rest → parseIntL tok.data = some r →
        mapOpt (fun t => parseFloatL t.data) rest = some vals →
        agps_step (n, c, samples) line =
          .ok (n, c, samples ++ [[(n : ℚ), (c : ℚ), (r : ℚ)] ++ vals])) ∧
      (∀ ds, (∀ d ∈ ds, isDataRow d = true) →
        ∃ tail, agps_loop (n, c, samples) ds = .ok (n, c, samples ++ tail) ∧
          tail.length = ds.length ∧ ∀ s ∈ tail, s.take 2 = [(n : ℚ), (c : ℚ)]) :=
  fun n c samples =>
    ⟨fun np cp => agps_step_ctx n c samples np cp,
     fun _ h => agps_step_eof n c samples h,
     fun _ h => agps_step_irow n c samples h,
     fun _ _ _ _ _ hn he hi hsp hr hv =>
       agps_step_data n c samples hn he hi hsp hr hv,
     fun ds h => agps_loop_data n c ds samples h⟩

/-- Witness for C8: the spec's example — `"n1c2"` sets context (1, 2) and
the two following data rows are both tagged with it. -/
theorem agps_parser_witness :
    agps_step (0, 0, []) (String.mk ('n' :: (natDigits 1 ++ 'c' :: natDigits 2))) =
      .ok (1, 2, []) ∧
    ∃ tail, agps_loop (1, 2, []) ["1 0.0 0.0 0.0 0.5", "2 1.0 0.0 0.0 0.7"] =
      .ok (1, 2, [] ++ tail) ∧ tail.length = 2 ∧
      ∀ s ∈ tail, s.take 2 = [(1 : ℚ), (2 : ℚ)] := by
  constructor
  · have h := (agps_parser_state_machine 0 0 []).1 1 2
    simpa using h
  · exact (agps_parser_state_machine 1 2 []).2.2.2.2 _ (by decide)

/-- C10 (confirmed): `parse_agps` unconditionally ignores the first six
lines — whatever they contain, they produce no samples and set no
context — and parsing begins at the seventh line. -/
theorem agps_skips_first_six (pre pre2 post : List String)
    (h1 : pre.length = 6) (h2 : pre2.length = 6) :
    parse_agps (pre ++ post) = parse_agps (pre2 ++ post) ∧
    parse_agps (pre ++ post) =
      match agps_loop (0, 0, []) post with
      | .ok st => .ok st.2.2
      | .error e => .error e := by
  have hd : ∀ l : List String, l.length = 6 → (l ++ post).drop 6 = post := by
    intro l hl
    rw [← hl, List.drop_left]
  unfold parse_agps
  rw [hd pre h1, hd pre2 h2]
  exact ⟨rfl, rfl⟩

/-- Witness for C10: context lines, skip lines and data rows among the
first six lines are all ignored — the result only depends on the rest. -/
theorem agps_skips_first_six_witness :
    parse_agps (["n9c9", "1 2 3", "*eof", " irow x", "junk 1", "n8c8"] ++ ["n1c2"]) =
      parse_agps ([" ", " ", " ", " ", " ", " "] ++ ["n1c2"]) :=
  (agps_skips_first_six ["n9c9", "1 2 3", "*eof", " irow x", "junk 1", "n8c8"]
    [" ", " ", " ", " ", " ", " "] ["n1c2"] (by decide) (by decide)).1

/-! ### Claim C9: round-trip grid shape -/

theorem foldl_max_le {l : List ℚ} {b : ℚ} :
    ∀ {acc : ℚ}, acc ≤ b → (∀ x ∈ l, x ≤ b) → l.foldl max acc ≤ b := by
  induction l with
  | nil =>
    intro acc hacc _
    simpa using hacc
  | cons x l ih =>
    intro acc hacc h
    rw [List.foldl_cons]
    exact ih (max_le hacc (h x (by simp))) (fun y hy => h y (by simp [hy]))

theorem acc_le_foldl_max {l : List ℚ} : ∀ {acc : ℚ}, acc ≤ l.foldl max acc := by
  induction l with
  | nil => intro acc; simp
  | cons x l ih =>
    intro acc
    rw [List.foldl_cons]
    exact le_trans (le_max_left _ _) ih

theorem le_foldl_max {l : List ℚ} : ∀ {acc x : ℚ}, x ∈ l → x ≤ l.foldl max acc := by
  induction l with
  | nil =>
    intro acc x h
    simp at h
  | cons y l ih =>
    intro acc x h
    rw [List.foldl_cons]
    rcases List.mem_cons.mp h with rfl | h
    · exact le_trans (le_max_right _ _) acc_le_foldl_max
    · exact ih h

theorem maxList_eq {l : List ℚ} {b : ℚ} (hmem : b ∈ l) (hub : ∀ x ∈ l, x ≤ b) :
    maxList l = b := by
  unfold maxList
  apply le_antisymm
  · refine foldl_max_le ?_ hub
    cases l with
    | nil => simp at hmem
    | cons y l => exact hub y (by simp)
  · exact le_foldl_max hmem

theorem pyInt_natCast (n : Nat) : pyInt (n : ℚ) = (n : Int) := by
  unfold pyInt
  simp

theorem mem_networkSamples {nid : Int} {N M : Nat} {xyz : Nat → Nat → List ℚ}
    {p : List ℚ} :
    p ∈ networkSamples nid N M xyz ↔
      ∃ i j, i < N ∧ j < M ∧
        p = [(nid : ℚ), ((j : ℚ) + 1), ((i : ℚ) + 1)] ++ xyz i j := by
  constructor
  · intro hp
    obtain ⟨l, hl, hpl⟩ := List.mem_flatten.mp hp
    obtain ⟨i, hi, rfl⟩ := List.mem_map.mp hl
    obtain ⟨j, hj, heq⟩ := List.mem_map.mp hpl
    exact ⟨i, j, List.mem_range.mp hi, List.mem_range.mp hj, heq.symm⟩
  · rintro ⟨i, j, hi, hj, rfl⟩
    exact List.mem_flatten.mpr ⟨_,
      List.mem_map.mpr ⟨i, List.mem_range.mpr hi, rfl⟩,
      List.mem_map.mpr ⟨j, List.mem_range.mpr hj, rfl⟩⟩

theorem reconRows_networkSamples (nid : Int) (N M : Nat) (xyz : Nat → Nat → List ℚ)
    (hN : 1 ≤ N) (hM : 1 ≤ M) : reconRows (networkSamples nid N M xyz) = N := by
  unfold reconRows
  have hmax : maxList ((networkSamples nid N M xyz).map (fun p => p.getD 2 0)) =
      (N : ℚ) := by
    apply maxList_eq
    · refine List.mem_map.mpr
        ⟨[(nid : ℚ), (((0 : Nat) : ℚ) + 1), (((N - 1 : Nat) : ℚ) + 1)] ++ xyz (N - 1) 0,
          mem_networkSamples.mpr ⟨N - 1, 0, by omega, by omega, rfl⟩, ?_⟩
      show (((N - 1 : Nat) : ℚ) + 1) = (N : ℚ)
      rw [Nat.cast_sub hN]
      ring
    · intro x hx
      obtain ⟨p, hp, rfl⟩ := List.mem_map.mp hx
      obtain ⟨i, j, hi, _, rfl⟩ := mem_networkSamples.mp hp
      show ((i : ℚ) + 1) ≤ (N : ℚ)
      have hi1 : (i + 1 : ℕ) ≤ N := hi
      exact_mod_cast hi1
  rw [hmax, pyInt_natCast]
  simp

theorem reconCols_networkSamples (nid : Int) (N M : Nat) (xyz : Nat → Nat → List ℚ)
    (hN : 1 ≤ N) (hM : 1 ≤ M) : reconCols (networkSamples nid N M xyz) = M := by
  unfold reconCols
  have hmax : maxList ((networkSamples nid N M xyz).map (fun p => p.getD 1 0)) =
      (M : ℚ) := by
    apply maxList_eq
    · refine List.mem_map.mpr
        ⟨[(nid : ℚ), (((M - 1 : Nat) : ℚ) + 1), (((0 : Nat) : ℚ) + 1)] ++ xyz 0 (M - 1),
          mem_networkSamples.mpr ⟨0, M - 1, by omega, by omega, rfl⟩, ?_⟩
      show (((M - 1 : Nat) : ℚ) + 1) = (M : ℚ)
      rw [Nat.cast_sub hM]
      ring
    · intro x hx
      obtain ⟨p, hp, rfl⟩ := List.mem_map.mp hx
      obtain ⟨i, j, _, hj, rfl⟩ := mem_networkSamples.mp hp
      show ((j : ℚ) + 1) ≤ (M : ℚ)
      have hj1 : (j + 1 : ℕ) ≤ M := hj
      exact_mod_cast hj1
  rw [hmax, pyInt_natCast]
  simp

theorem setCell_shape {N M : Nat} {X : List (List ℚ)} (h : GridShape N M X)
    (i j : Nat) (v : ℚ) : GridShape N M (setCell X i j v) := by
  unfold setCell
  by_cases hi : i < X.length
  · refine ⟨by rw [List.length_set]; exact h.1, ?_⟩
    intro row hrow
    rcases List.mem_or_eq_of_mem_set hrow with hmem | heq
    · exact h.2 row hmem
    · rw [heq, List.length_set]
      have hget : X.getD i [] ∈ X := by
        rw [List.getD_eq_getElem?_getD, List.getElem?_eq_getElem hi]
        exact List.getElem_mem hi
      exact h.2 _ hget
  · rw [List.set_eq_of_length_le (by omega)]
    exact h

theorem foldl_preserves_shape {N M : Nat} (ps : List (List ℚ)) :
    ∀ (X : List (List ℚ)), GridShape N M X →
      GridShape N M (ps.foldl
        (fun X p => setCell X (pyInt (p.getD 2 0 - 1)).toNat
          (pyInt (p.getD 1 0 - 1)).toNat (p.getD 3 0)) X) := by
  induction ps with
  | nil => exact fun X h => h
  | cons p ps ih =>
    intro X h
    rw [List.foldl_cons]
    exact ih _ (setCell_shape h _ _ _)

theorem reconX_shape (pts : List (List ℚ)) :
    GridShape (reconRows pts) (reconCols pts) (reconX pts) := by
  unfold reconX
  apply foldl_preserves_shape
  constructor
  · simp
  · intro row hrow
    rw [List.eq_of_mem_replicate hrow]
    simp

/-- C9 (confirmed): reconstructing a grid from the sample set addressed
with the write-side (network, row, column) scheme of an `N` × `M` network
— extent the maximum observed row and column ids, each sample scattered
into cell (row−1, column−1) — yields an array of shape `(N, M)`. -/
theorem roundtrip_grid_shape (nid : Int) (N M : Nat) (xyz : Nat → Nat → List ℚ)
    (hN : 1 ≤ N) (hM : 1 ≤ M) :
    reconRows (networkSamples nid N M xyz) = N ∧
    reconCols (networkSamples nid N M xyz) = M ∧
    GridShape N M (reconX (networkSamples nid N M xyz)) := by
  have hr := reconRows_networkSamples nid N M xyz hN hM
  have hc := reconCols_networkSamples nid N M xyz hN hM
  refine ⟨hr, hc, ?_⟩
  have hs := reconX_shape (networkSamples nid N M xyz)
  rwa [hr, hc] at hs

/-- Witness for C9: a 2 × 2 network round-trips to a 2 × 2 array. -/
theorem roundtrip_grid_shape_witness :
    reconRows (networkSamples 1 2 2 (fun _ _ => [0])) = 2 ∧
    reconCols (networkSamples 1 2 2 (fun _ _ => [0])) = 2 ∧
    GridShape 2 2 (reconX (networkSamples 1 2 2 (fun _ _ => [0]))) :=
  roundtrip_grid_shape 1 2 2 (fun _ _ => [0]) (by norm_num) (by norm_num)

end Panair
